import Mathlib

/-!
Shallow embedding of `src/qr_code_labels/main.py` (the `qr-code-labels` generator)
and proofs about its layout, packing, code-generation and CLI-parsing logic.

Modelling conventions:
* Python floats are modelled as exact rationals (`ℚ`); Python `int(x)` on a
  nonnegative value is `Int.floor`, in general truncation toward zero (`pyInt`).
* Python `//` on nonnegative floats is `⌊a / b⌋`; on ints it is `Int.fdiv`.
* The mutable packing loop of `Generator.create_labels` becomes explicit state
  passing over `PackState`; a Python `IndexError` (out-of-range list indexing)
  is modelled by returning `none`.
* `secrets.choice` randomness becomes an explicit oracle argument, and the
  unbounded uniqueness retry loop of `Generator.generate_codes` takes explicit
  fuel: a `none` result means the Python loop would still be running.
-/

namespace QRLabels

/-- Model of the Python `Dimensions2D` named tuple (floats as exact rationals). -/
structure Dimensions2D where
  width : ℚ
  height : ℚ
deriving DecidableEq

/-- `Dimensions2D.scale`. -/
def Dimensions2D.scale (d : Dimensions2D) (factor : ℚ) : Dimensions2D :=
  ⟨d.width * factor, d.height * factor⟩

/-- `Dimensions2D.resize`. -/
def Dimensions2D.resize (d : Dimensions2D) (diff : ℚ) : Dimensions2D :=
  ⟨d.width + diff, d.height + diff⟩

/-- Python `int(...)` applied to an exact rational: truncation toward zero. -/
def pyInt (q : ℚ) : ℤ := if 0 ≤ q then ⌊q⌋ else ⌈q⌉

/-- `DPI = 300`. -/
def DPI : ℚ := 300

/-- `LETTER_DIM_IN = Dimensions2D(8.5, 11)`. -/
def LETTER_DIM_IN : Dimensions2D := ⟨17 / 2, 11⟩

/-- `PAGE_MARGIN_IN = 0.5`. -/
def PAGE_MARGIN_IN : ℚ := 1 / 2

/-- `PAGE_DIM = LETTER_DIM_IN.scale(DPI)`. -/
def PAGE_DIM : Dimensions2D := LETTER_DIM_IN.scale DPI

/-- `PAGE_MARGIN_PX = PAGE_MARGIN_IN * DPI`. -/
def PAGE_MARGIN_PX : ℚ := PAGE_MARGIN_IN * DPI

/-- `PAGE_WITHOUT_MARGINS_PX = PAGE_DIM.resize(-2 * PAGE_MARGIN_PX)`. -/
def PAGE_WITHOUT_MARGINS_PX : Dimensions2D := PAGE_DIM.resize (-2 * PAGE_MARGIN_PX)

/-- `string.ascii_uppercase`. -/
def asciiUppercase : List Char := "ABCDEFGHIJKLMNOPQRSTUVWXYZ".toList

/-- `string.digits`. -/
def asciiDigits : List Char := "0123456789".toList

/-- `ALPHANUM_UPPER = (string.ascii_uppercase + string.digits).replace("Q", "")`:
removing every occurrence of `'Q'` is filtering it out. -/
def ALPHANUM_UPPER : List Char := (asciiUppercase ++ asciiDigits).filter (fun c => c ≠ 'Q')

/-- `CODE_SIZE = 5`. -/
def CODE_SIZE : ℕ := 5

/-- The random data consumed by one `generate_code()` call: one alphabet index
per character position. -/
abbrev Pick := Fin CODE_SIZE → Fin ALPHANUM_UPPER.length

/-- `generate_code()`: join of `CODE_SIZE` uses of `secrets.choice(ALPHANUM_UPPER)`,
the random choices supplied by `pick`. -/
def generate_code (pick : Pick) : List Char :=
  (List.finRange CODE_SIZE).map (fun i => ALPHANUM_UPPER.get (pick i))

/-- Inserting a key into a Python `dict` (value `True` carries no information):
insertion order is kept, duplicate keys are dropped. -/
def insertKey (ks : List (List Char)) (k : List Char) : List (List Char) :=
  if k ∈ ks then ks else ks ++ [k]

/-- The `while len(codes) < self.count` retry loop of `Generator.generate_codes`,
with explicit fuel; `i` is the index of the next oracle value to consume.
`none` means the fuel ran out with the loop still running. -/
def generate_codes_loop (oracle : ℕ → Pick) (count : ℕ) :
    ℕ → ℕ → List (List Char) → Option (List (List Char))
  | 0, _, ks => if count ≤ ks.length then some ks else none
  | f + 1, i, ks =>
    if count ≤ ks.length then some ks
    else generate_codes_loop oracle count f (i + 1) (insertKey ks (generate_code (oracle i)))

/-- `Generator.generate_codes`: the dict comprehension over `range(count)`
followed by the uniqueness retry loop. -/
def generate_codes (oracle : ℕ → Pick) (count fuel : ℕ) : Option (List (List Char)) :=
  generate_codes_loop oracle count fuel count
    ((List.range count).foldl (fun ks n => insertKey ks (generate_code (oracle n))) [])

/-- `Generator._calculate_grid_dim`, parameterised by the printable-area constant
it reads (`PAGE_WITHOUT_MARGINS_PX` in the source) and by the already computed
`self._qr_size_px`. -/
def calculate_grid_dim (pageWithoutMargins : Dimensions2D) (qrSizePx : ℤ)
    (includeCutLines : Bool) : ℤ × ℤ :=
  let qr_size : ℤ := if includeCutLines then qrSizePx + 1 else qrSizePx
  let page_size : Dimensions2D :=
    if includeCutLines then pageWithoutMargins.resize (-1) else pageWithoutMargins
  (⌊page_size.width / (qr_size : ℚ)⌋, ⌊page_size.height / (qr_size : ℚ)⌋)

/-- `self._qr_size_px = int(self.scale * DPI)`. -/
def qr_size_px (scale : ℚ) : ℤ := pyInt (scale * DPI)

/-- A code as placed by the packer (`main.py` keys all per-code svg groups by
the code string). -/
abbrev Code := List Char

/-- One row of a page under construction: the Python `page_codes[y]` list. -/
abbrev PageRow := List Code

/-- One page: the Python `page_codes` list of rows. -/
abbrev Page := List PageRow

/-- The mutable state of the packing loop in `Generator.create_labels`:
cursors `row`/`col`, the page under construction, the sealed pages, and (for
verification) the value of `col` at each in-loop page seal. -/
structure PackState where
  row : ℕ
  col : ℕ
  pageCodes : Page
  pages : List Page
  sealCols : List ℕ
deriving DecidableEq

/-- State at the top of the packing loop. -/
def initState : PackState := ⟨0, 0, [], [], []⟩

/-- `Generator._save_page`: appends the page to `self._pages` unless empty. -/
def save_page (pages : List Page) (pageCodes : Page) : List Page :=
  if pageCodes.isEmpty then pages else pages ++ [pageCodes]

/-- `if col == self._grid_dim.width: row += 1; col = 0`. -/
def wrapCol (w : ℤ) (s : PackState) : PackState :=
  if (s.col : ℤ) = w then { s with row := s.row + 1, col := 0 } else s

/-- `if row == self._grid_dim.height: self._save_page(page_codes); page_codes = []; row = 0`
(recording in `sealCols` the value of `col` at this seal for verification). -/
def sealFull (h : ℤ) (s : PackState) : PackState :=
  if (s.row : ℤ) = h then
    { s with pages := save_page s.pages s.pageCodes, pageCodes := [], row := 0,
             sealCols := s.sealCols ++ [s.col] }
  else s

/-- `if row == len(page_codes): page_codes.append([])`. -/
def openRow (s : PackState) : PackState :=
  if s.row = s.pageCodes.length then { s with pageCodes := s.pageCodes ++ [[]] } else s

/-- `page_codes[row].append(qr_code_with_label); col += 1`; `none` is the
`IndexError` raised when `row` is out of range of `page_codes`. -/
def placeAt (c : Code) (s : PackState) : Option PackState :=
  if hlt : s.row < s.pageCodes.length then
    some { s with
           pageCodes := s.pageCodes.set s.row (s.pageCodes.get ⟨s.row, hlt⟩ ++ [c]),
           col := s.col + 1 }
  else none

/-- One iteration of the inner `for _ in range(_repeat)` loop of
`Generator.create_labels`: the four statements in source order. -/
def placeUnit (w h : ℤ) (c : Code) (s : PackState) : Option PackState :=
  placeAt c (openRow (sealFull h (wrapCol w s)))

/-- `for _ in range(reps)` around `placeUnit`. -/
def placeUnits (w h : ℤ) (c : Code) : ℕ → PackState → Option PackState
  | 0, s => some s
  | n + 1, s => (placeUnit w h c s).bind (placeUnits w h c n)

/-- The per-code body of the outer `for code in codes` loop: the grouping
new-row branch, then `reps` placements of the code. -/
def placeCode (w h : ℤ) (group : Bool) (reps : ℕ) (c : Code) (s : PackState) : Option PackState :=
  placeUnits w h c reps
    (if group && !s.pageCodes.isEmpty then { s with row := s.row + 1, col := 0 } else s)

/-- The outer `for code in codes` loop. -/
def packCodes (w h : ℤ) (group : Bool) (reps : ℕ) : List Code → PackState → Option PackState
  | [], s => some s
  | c :: cs, s => (placeCode w h group reps c s).bind (packCodes w h group reps cs)

/-- The effective `_repeat` computed in `Generator.create_labels`:
`((repeat - 1) // width + 1) * width` when grouping and fill are both on
(Python `//` on ints is floor division), otherwise the configured repeat. -/
def effRepeat (group fill : Bool) (rep w : ℤ) : ℤ :=
  if group && fill then (Int.fdiv (rep - 1) w + 1) * w else rep

/-- The packing portion of `Generator.create_labels` for a given grid: the
per-code loop from `initState`, then the final `self._save_page(page_codes)`.
`range` of a negative effective repeat is empty, hence `Int.toNat`. -/
def create_labels_pack (w h : ℤ) (group fill : Bool) (rep : ℤ) (codes : List Code) :
    Option PackState :=
  (packCodes w h group ((effRepeat group fill rep w).toNat) codes initState).map
    (fun s => { s with pages := save_page s.pages s.pageCodes })

/-- `Generator.create_labels` with the grid computed from the configuration,
as in the source (`_calculate_grid_dim` on the module constants). -/
def create_labels_run (scale : ℚ) (cut group fill : Bool) (rep : ℤ) (codes : List Code) :
    Option PackState :=
  let g := calculate_grid_dim PAGE_WITHOUT_MARGINS_PX (qr_size_px scale) cut
  create_labels_pack g.1 g.2 group fill rep codes

/-- Number of labels on one page. -/
def pageLabels (p : Page) : ℕ := (p.map List.length).sum

/-- Number of labels over a list of pages. -/
def totalLabels (ps : List Page) : ℕ := (ps.map pageLabels).sum

/-- Labels placed so far: sealed pages plus the page under construction. -/
def liveCount (s : PackState) : ℕ := totalLabels s.pages + pageLabels s.pageCodes

/-- Well-formed sealed pages for grid `w × h`: nonempty, at most `h` rows,
every row nonempty with at most `w` labels. -/
def pagesWF (w h : ℤ) (ps : List Page) : Prop :=
  ∀ p ∈ ps, p ≠ [] ∧ (p.length : ℤ) ≤ h ∧ ∀ r ∈ p, 1 ≤ r.length ∧ (r.length : ℤ) ≤ w

/-- Rows of the page under construction are nonempty and fit the grid width. -/
def rowsWF (w : ℤ) (pc : Page) : Prop :=
  ∀ r ∈ pc, 1 ≤ r.length ∧ (r.length : ℤ) ≤ w

/-- Invariant holding between placements: state `A` (fresh page) or state `B`
(cursor on the last, nonempty row of the page under construction). -/
def Inv (w h : ℤ) (s : PackState) : Prop :=
  pagesWF w h s.pages ∧ (∀ x ∈ s.sealCols, x = 0) ∧
  ((s.pageCodes = [] ∧ s.row = 0 ∧ s.col = 0) ∨
   (∃ pc r, s.pageCodes = pc ++ [r] ∧ s.row = pc.length ∧ s.col = r.length ∧
      (s.pageCodes.length : ℤ) ≤ h ∧ rowsWF w s.pageCodes))

/-- Weaker pre-placement invariant: additionally allows state `C`, the cursor
just past the last row with the column reset (produced by the grouping branch). -/
def PreInv (w h : ℤ) (s : PackState) : Prop :=
  pagesWF w h s.pages ∧ (∀ x ∈ s.sealCols, x = 0) ∧
  ((s.pageCodes = [] ∧ s.row = 0 ∧ s.col = 0) ∨
   (∃ pc r, s.pageCodes = pc ++ [r] ∧ s.row = pc.length ∧ s.col = r.length ∧
      (s.pageCodes.length : ℤ) ≤ h ∧ rowsWF w s.pageCodes) ∨
   (s.pageCodes ≠ [] ∧ s.row = s.pageCodes.length ∧ s.col = 0 ∧
      (s.pageCodes.length : ℤ) ≤ h ∧ rowsWF w s.pageCodes))

/-- A row all of whose labels carry the same code. -/
def homogRow (r : PageRow) : Prop := ∀ a ∈ r, ∀ b ∈ r, a = b

/-- Every row of every page in the list is single-code. -/
def homogPages (ps : List Page) : Prop := ∀ p ∈ ps, ∀ r ∈ p, homogRow r

/-- Homogeneity state while placing copies of code `c`: sealed pages and the
rows built so far are single-code, and either a fresh row is pending
(`row = len`) or the current last row holds only copies of `c`. -/
def HomogC (c : Code) (s : PackState) : Prop :=
  homogPages s.pages ∧ (∀ r ∈ s.pageCodes, homogRow r) ∧
  (s.row = s.pageCodes.length ∨ ∀ pc r, s.pageCodes = pc ++ [r] → ∀ a ∈ r, a = c)

/-- Homogeneity between codes: sealed pages and built rows are single-code. -/
def Homog (s : PackState) : Prop :=
  homogPages s.pages ∧ ∀ r ∈ s.pageCodes, homogRow r

/-- How one placement changes the page under construction: append to the last
row, open a fresh row on the same page, or seal the page and start a new one. -/
def UnitDelta (c : Code) (s s' : PackState) : Prop :=
  (∃ pc r, s.pageCodes = pc ++ [r] ∧ s'.pageCodes = pc ++ [r ++ [c]] ∧
     s.row + 1 = s.pageCodes.length ∧ s'.pages = s.pages) ∨
  (s'.pageCodes = s.pageCodes ++ [[c]] ∧ s'.pages = s.pages) ∨
  (s'.pageCodes = [[c]] ∧ s'.pages = s.pages ++ [s.pageCodes])

/-- C2's formula exactly as the spec words it (for the refutation): footprint
`scale × resolution × base size` plus one pixel iff cut lines, printable area
`page − 2 × margin` in pixels with no further adjustment. -/
def specClaimGridDim (pageIn : Dimensions2D) (marginIn scale : ℚ) (cut : Bool) : ℤ × ℤ :=
  let f : ℚ := scale * DPI + (if cut then 1 else 0)
  (⌊(pageIn.width - 2 * marginIn) * DPI / f⌋, ⌊(pageIn.height - 2 * marginIn) * DPI / f⌋)

/-- C2 as amended: the footprint is `int(scale × resolution)` plus one pixel
iff cut lines, and with cut lines the printable area is additionally reduced
by one pixel per axis before the floor division. -/
def amendedGridDim (pageIn : Dimensions2D) (marginIn scale : ℚ) (cut : Bool) : ℤ × ℤ :=
  let f : ℤ := pyInt (scale * DPI) + (if cut then 1 else 0)
  let pw : ℚ := (pageIn.width - 2 * marginIn) * DPI - (if cut then 1 else 0)
  let ph : ℚ := (pageIn.height - 2 * marginIn) * DPI - (if cut then 1 else 0)
  (⌊pw / (f : ℚ)⌋, ⌊ph / (f : ℚ)⌋)

/-- Python `\s` (ASCII): space, tab, newline, carriage return, vertical tab,
form feed. -/
def isSpaceChar (c : Char) : Bool :=
  c = ' ' || c = '\t' || c = '\n' || c = '\r' || c = '\x0b' || c = '\x0c'

/-- Python `\d` (ASCII range relevant to the claim). -/
def isDigitChar (c : Char) : Bool := '0' ≤ c && c ≤ '9'

/-- `int(...)` of a digit string. -/
def natOfDigits (ds : List Char) : ℕ :=
  ds.foldl (fun n c => 10 * n + (c.toNat - 48)) 0

/-- The `(?:x(\d+))?` group: literal `x` must be followed by digits, else the
whole match fails (the leftover `x` can never match the rest of the pattern). -/
def parseRepeatPart : List Char → Option (Option ℕ × List Char)
  | 'x' :: rest =>
    let ds := rest.takeWhile isDigitChar
    if ds = [] then none else some (some (natOfDigits ds), rest.dropWhile isDigitChar)
  | cs => some (none, cs)

/-- The `(?:@(\d+(?:\.?\d+)?))?` group, with `float(...)` of the capture as an
exact rational. -/
def parseScalePart : List Char → Option (Option ℚ × List Char)
  | '@' :: rest =>
    let ds := rest.takeWhile isDigitChar
    let r1 := rest.dropWhile isDigitChar
    if ds = [] then none
    else
      match r1 with
      | '.' :: r2 =>
        let fs := r2.takeWhile isDigitChar
        if fs = [] then none
        else some (some ((natOfDigits ds : ℚ) + (natOfDigits fs : ℚ) / (10 : ℚ) ^ fs.length),
                   r2.dropWhile isDigitChar)
      | _ => some (some ((natOfDigits ds : ℚ)), r1)
  | cs => some (none, cs)

/-- The compact-spec parse in `cli`:
`re.match(r"^\s*(\d+)(?:x(\d+))?(?:@(\d+(?:\.?\d+)?))?\s*$", spec)` with the
three captures converted by `int`/`int`/`float`. -/
def parseSpec (s : String) : Option (ℕ × Option ℕ × Option ℚ) :=
  let cs := s.toList.dropWhile isSpaceChar
  let ds := cs.takeWhile isDigitChar
  let r0 := cs.dropWhile isDigitChar
  if ds = [] then none
  else
    match parseRepeatPart r0 with
    | none => none
    | some (repOpt, r1) =>
      match parseScalePart r1 with
      | none => none
      | some (scOpt, r2) =>
        if r2.dropWhile isSpaceChar = [] then some (natOfDigits ds, repOpt, scOpt) else none

/-- The validated run configuration built by `cli`. -/
structure RunConfig where
  count : ℤ
  rep : ℤ
  scale : ℚ
deriving DecidableEq

/-- The try-block of `cli` up to constructing the `Generator`: spec override
(when a nonempty spec string is given), then the `>= 1` validations, each
raising `ValueError` (modelled as `Except.error` with a tag naming the field). -/
def cliValidate (count0 rep0 : ℤ) (scale0 : ℚ) (spec : Option String) :
    Except String RunConfig :=
  let parsed : Except String (ℤ × ℤ × ℚ) :=
    match spec with
    | none => .ok (count0, rep0, scale0)
    | some sp =>
      if sp = "" then .ok (count0, rep0, scale0)
      else
        match parseSpec sp with
        | none => .error "SPEC is invalid"
        | some (c, repOpt, scOpt) =>
          .ok ((c : ℤ),
               (match repOpt with | none => rep0 | some r => (r : ℤ)),
               (match scOpt with | none => scale0 | some sc => sc))
  match parsed with
  | .error e => .error e
  | .ok (c, r, sc) =>
    if c < 1 then .error "Invalid value for count"
    else if r < 1 then .error "Invalid value for repeat"
    else if sc < 1 then .error "Invalid value for scale"
    else .ok ⟨c, r, sc⟩

/-! ### List and metric helpers -/

theorem set_append_last {α : Type} (pc : List α) (r v : α) :
    (pc ++ [r]).set pc.length v = pc ++ [v] := by
  induction pc with
  | nil => rfl
  | cons a t ih => simpa using ih

theorem get_append_last {α : Type} (pc : List α) (r : α) (i : ℕ) (hi : i = pc.length)
    (hlt : i < (pc ++ [r]).length) : (pc ++ [r]).get ⟨i, hlt⟩ = r := by
  subst hi
  induction pc with
  | nil => rfl
  | cons a t ih => exact ih (by simpa using Nat.lt_of_succ_lt_succ hlt)

theorem set_append_last_at {α : Type} (pc : List α) (r v : α) (i : ℕ) (hi : i = pc.length) :
    (pc ++ [r]).set i v = pc ++ [v] := by
  subst hi
  exact set_append_last pc r v

theorem pageLabels_concat (p : Page) (r : PageRow) :
    pageLabels (p ++ [r]) = pageLabels p + r.length := by
  simp [pageLabels]

theorem totalLabels_concat (ps : List Page) (p : Page) :
    totalLabels (ps ++ [p]) = totalLabels ps + pageLabels p := by
  simp [totalLabels]

theorem save_page_nil (ps : List Page) : save_page ps [] = ps := rfl

theorem save_page_concat (ps : List Page) (pc : Page) (hne : pc ≠ []) :
    save_page ps pc = ps ++ [pc] := by
  simp [save_page, List.isEmpty_iff, hne]

theorem totalLabels_save_page (ps : List Page) (pc : Page) :
    totalLabels (save_page ps pc) = totalLabels ps + pageLabels pc := by
  rcases pc with _ | ⟨r, rs⟩
  · simp [save_page_nil, pageLabels]
  · rw [save_page_concat _ _ (by simp), totalLabels_concat]

/-! ### Reduction lemmas for the four packing stages -/

theorem wrapCol_ne {w : ℤ} {s : PackState} (hc : ¬((s.col : ℤ) = w)) : wrapCol w s = s :=
  if_neg hc

theorem wrapCol_eq {w : ℤ} {s : PackState} (hc : (s.col : ℤ) = w) :
    wrapCol w s = { s with row := s.row + 1, col := 0 } := if_pos hc

theorem sealFull_ne {h : ℤ} {s : PackState} (hr : ¬((s.row : ℤ) = h)) : sealFull h s = s :=
  if_neg hr

theorem sealFull_eq {h : ℤ} {s : PackState} (hr : (s.row : ℤ) = h) :
    sealFull h s = { s with pages := save_page s.pages s.pageCodes, pageCodes := [],
                            row := 0, sealCols := s.sealCols ++ [s.col] } := if_pos hr

theorem openRow_ne {s : PackState} (hr : ¬(s.row = s.pageCodes.length)) : openRow s = s :=
  if_neg hr

theorem openRow_eq {s : PackState} (hr : s.row = s.pageCodes.length) :
    openRow s = { s with pageCodes := s.pageCodes ++ [[]] } := if_pos hr

theorem placeAt_lt {c : Code} {s : PackState} (hlt : s.row < s.pageCodes.length) :
    placeAt c s = some { s with
      pageCodes := s.pageCodes.set s.row (s.pageCodes.get ⟨s.row, hlt⟩ ++ [c]),
      col := s.col + 1 } := dif_pos hlt

theorem Inv_PreInv {w h : ℤ} {s : PackState} (hs : Inv w h s) : PreInv w h s := by
  obtain ⟨h1, h2, h3 | h3⟩ := hs
  · exact ⟨h1, h2, Or.inl h3⟩
  · exact ⟨h1, h2, Or.inr (Or.inl h3)⟩

theorem placeUnit_ok {w h : ℤ} (hw : 1 ≤ w) (hh : 1 ≤ h) (c : Code) (s : PackState)
    (hs : PreInv w h s) :
    ∃ s', placeUnit w h c s = some s' ∧ Inv w h s' ∧ s'.pageCodes ≠ [] ∧
      liveCount s' = liveCount s + 1 ∧ UnitDelta c s s' := by
  obtain ⟨row, col, pageCodes, pages, sealCols⟩ := s
  simp only [PreInv] at hs
  obtain ⟨hpages, hseal, hstate⟩ := hs
  rcases hstate with ⟨hpc, hrow, hcol⟩ | ⟨pc, r, hpc, hrow, hcol, hlen, hrows⟩ |
    ⟨hne, hrow, hcol, hlen, hrows⟩
  · -- state A: empty page, cursors at origin
    subst hpc hrow hcol
    have e1 : wrapCol w ⟨0, 0, [], pages, sealCols⟩ = ⟨0, 0, [], pages, sealCols⟩ :=
      wrapCol_ne (by intro hx; simp at hx; omega)
    have e2 : sealFull h ⟨0, 0, [], pages, sealCols⟩ = ⟨0, 0, [], pages, sealCols⟩ :=
      sealFull_ne (by intro hx; simp at hx; omega)
    have e3 : openRow ⟨0, 0, [], pages, sealCols⟩ = ⟨0, 0, [] ++ [[]], pages, sealCols⟩ :=
      openRow_eq rfl
    refine ⟨⟨0, 1, [[c]], pages, sealCols⟩, ?_, ?_, by simp, ?_, ?_⟩
    · rw [placeUnit, e1, e2, e3, placeAt_lt (by simp)]
      rfl
    · refine ⟨hpages, hseal, Or.inr ⟨[], [c], rfl, rfl, rfl, by simpa using hh, ?_⟩⟩
      intro r' hr'
      simp at hr'
      subst hr'
      exact ⟨by simp, by simpa using hw⟩
    · simp [liveCount, pageLabels]
    · exact Or.inr (Or.inl ⟨rfl, rfl⟩)
  · -- state B: cursor on the last, nonempty row
    subst hpc hrow hcol
    have hrmem : r ∈ pc ++ [r] := List.mem_append_right _ (by simp)
    obtain ⟨hr1, hrW⟩ := hrows r hrmem
    have hlen' : (pc.length : ℤ) + 1 ≤ h := by simpa using hlen
    rcases lt_or_eq_of_le hrW with hlt | heqW
    · -- column not yet full: append to the last row
      have e1 : wrapCol w ⟨pc.length, r.length, pc ++ [r], pages, sealCols⟩ =
          ⟨pc.length, r.length, pc ++ [r], pages, sealCols⟩ :=
        wrapCol_ne (by intro hx; simp only at hx; omega)
      have e2 : sealFull h ⟨pc.length, r.length, pc ++ [r], pages, sealCols⟩ =
          ⟨pc.length, r.length, pc ++ [r], pages, sealCols⟩ :=
        sealFull_ne (by intro hx; simp only at hx; omega)
      have e3 : openRow ⟨pc.length, r.length, pc ++ [r], pages, sealCols⟩ =
          ⟨pc.length, r.length, pc ++ [r], pages, sealCols⟩ :=
        openRow_ne (by simp)
      have hlt4 : pc.length < (pc ++ [r]).length := by simp
      refine ⟨⟨pc.length, r.length + 1, pc ++ [r ++ [c]], pages, sealCols⟩, ?_, ?_, by simp,
        ?_, ?_⟩
      · rw [placeUnit, e1, e2, e3, placeAt_lt (by simpa using hlt4)]
        rw [get_append_last pc r pc.length rfl, set_append_last_at pc r _ pc.length rfl]
      · refine ⟨hpages, hseal, Or.inr ⟨pc, r ++ [c], rfl, rfl, by simp, by simpa using hlen',
          ?_⟩⟩
        intro r' hr'
        rcases List.mem_append.mp hr' with hl | hr
        · exact hrows r' (List.mem_append_left _ hl)
        · simp at hr
          subst hr
          refine ⟨by simp, ?_⟩
          simp only [List.length_append, List.length_cons, List.length_nil]
          push_cast
          omega
      · simp [liveCount, pageLabels_concat]
        omega
      · exact Or.inl ⟨pc, r, rfl, rfl, by simp, rfl⟩
    · -- column full: wrap to a fresh row, sealing the page if at capacity
      have e1 : wrapCol w ⟨pc.length, r.length, pc ++ [r], pages, sealCols⟩ =
          ⟨pc.length + 1, 0, pc ++ [r], pages, sealCols⟩ := wrapCol_eq heqW
      by_cases hfull : (pc.length : ℤ) + 1 = h
      · -- seal the full page
        have e2 : sealFull h ⟨pc.length + 1, 0, pc ++ [r], pages, sealCols⟩ =
            ⟨0, 0, [], save_page pages (pc ++ [r]), sealCols ++ [0]⟩ :=
          sealFull_eq (by simp only; push_cast; omega)
        refine ⟨⟨0, 1, [[c]], pages ++ [pc ++ [r]], sealCols ++ [0]⟩, ?_, ?_, by simp, ?_, ?_⟩
        · rw [placeUnit, e1, e2, save_page_concat _ _ (by simp)]
          rw [openRow_eq rfl, placeAt_lt (by simp)]
          rfl
        · refine ⟨?_, ?_, Or.inr ⟨[], [c], rfl, rfl, rfl, by simpa using hh, ?_⟩⟩
          · intro p hp
            rcases List.mem_append.mp hp with hl | hr2
            · exact hpages p hl
            · simp at hr2
              subst hr2
              exact ⟨by simp, by simpa using hlen, hrows⟩
          · intro x hx
            rcases List.mem_append.mp hx with hl | hr2
            · exact hseal x hl
            · simpa using hr2
          · intro r' hr'
            simp at hr'
            subst hr'
            exact ⟨by simp, by simpa using hw⟩
        · simp [liveCount, totalLabels_concat, pageLabels]
        · exact Or.inr (Or.inr ⟨rfl, rfl⟩)
      · -- open a fresh row on the same page
        have e2 : sealFull h ⟨pc.length + 1, 0, pc ++ [r], pages, sealCols⟩ =
            ⟨pc.length + 1, 0, pc ++ [r], pages, sealCols⟩ :=
          sealFull_ne (by intro hx; simp only at hx; push_cast at hx; omega)
        have e3 : openRow ⟨pc.length + 1, 0, pc ++ [r], pages, sealCols⟩ =
            ⟨pc.length + 1, 0, (pc ++ [r]) ++ [[]], pages, sealCols⟩ :=
          openRow_eq (by simp)
        refine ⟨⟨pc.length + 1, 1, (pc ++ [r]) ++ [[c]], pages, sealCols⟩, ?_, ?_, by simp,
          ?_, ?_⟩
        · rw [placeUnit, e1, e2, e3, placeAt_lt (by simp)]
          rw [get_append_last (pc ++ [r]) [] (pc.length + 1) (by simp),
            set_append_last_at (pc ++ [r]) [] _ (pc.length + 1) (by simp)]
          rfl
        · refine ⟨hpages, hseal, Or.inr ⟨pc ++ [r], [c], rfl, by simp, rfl, ?_, ?_⟩⟩
          · simp only [List.length_append, List.length_cons, List.length_nil]
            push_cast
            omega
          · intro r' hr'
            rcases List.mem_append.mp hr' with hl | hr2
            · exact hrows r' hl
            · simp at hr2
              subst hr2
              exact ⟨by simp, by simpa using hw⟩
        · simp [liveCount, pageLabels]
          omega
        · exact Or.inr (Or.inl ⟨by simp, rfl⟩)
  · -- state C: grouping moved the cursor past the last row, column reset
    subst hrow hcol
    have e1 : wrapCol w ⟨pageCodes.length, 0, pageCodes, pages, sealCols⟩ =
        ⟨pageCodes.length, 0, pageCodes, pages, sealCols⟩ :=
      wrapCol_ne (by intro hx; simp at hx; omega)
    by_cases hfull : (pageCodes.length : ℤ) = h
    · -- seal the page at capacity
      have e2 : sealFull h ⟨pageCodes.length, 0, pageCodes, pages, sealCols⟩ =
          ⟨0, 0, [], save_page pages pageCodes, sealCols ++ [0]⟩ := sealFull_eq hfull
      refine ⟨⟨0, 1, [[c]], pages ++ [pageCodes], sealCols ++ [0]⟩, ?_, ?_, by simp, ?_, ?_⟩
      · rw [placeUnit, e1, e2, save_page_concat _ _ hne]
        rw [openRow_eq rfl, placeAt_lt (by simp)]
        rfl
      · refine ⟨?_, ?_, Or.inr ⟨[], [c], rfl, rfl, rfl, by simpa using hh, ?_⟩⟩
        · intro p hp
          rcases List.mem_append.mp hp with hl | hr2
          · exact hpages p hl
          · simp at hr2
            subst hr2
            exact ⟨hne, hlen, hrows⟩
        · intro x hx
          rcases List.mem_append.mp hx with hl | hr2
          · exact hseal x hl
          · simpa using hr2
        · intro r' hr'
          simp at hr'
          subst hr'
          exact ⟨by simp, by simpa using hw⟩
      · simp [liveCount, totalLabels_concat, pageLabels]
      · exact Or.inr (Or.inr ⟨rfl, rfl⟩)
    · -- still below capacity: open a fresh row
      have e2 : sealFull h ⟨pageCodes.length, 0, pageCodes, pages, sealCols⟩ =
          ⟨pageCodes.length, 0, pageCodes, pages, sealCols⟩ := sealFull_ne hfull
      have e3 : openRow ⟨pageCodes.length, 0, pageCodes, pages, sealCols⟩ =
          ⟨pageCodes.length, 0, pageCodes ++ [[]], pages, sealCols⟩ := openRow_eq rfl
      refine ⟨⟨pageCodes.length, 1, pageCodes ++ [[c]], pages, sealCols⟩, ?_, ?_, by simp,
        ?_, ?_⟩
      · rw [placeUnit, e1, e2, e3, placeAt_lt (by simp)]
        rw [get_append_last pageCodes [] pageCodes.length rfl,
          set_append_last_at pageCodes [] _ pageCodes.length rfl]
        rfl
      · refine ⟨hpages, hseal, Or.inr ⟨pageCodes, [c], rfl, rfl, rfl, ?_, ?_⟩⟩
        · simp only [List.length_append, List.length_cons, List.length_nil]
          push_cast
          omega
        · intro r' hr'
          rcases List.mem_append.mp hr' with hl | hr2
          · exact hrows r' hl
          · simp at hr2
            subst hr2
            exact ⟨by simp, by simpa using hw⟩
      · simp [liveCount, pageLabels_concat]
        omega
      · exact Or.inr (Or.inl ⟨rfl, rfl⟩)

theorem placeUnits_ok {w h : ℤ} (hw : 1 ≤ w) (hh : 1 ≤ h) (c : Code) :
    ∀ n s, PreInv w h s →
      ∃ s', placeUnits w h c n s = some s' ∧ liveCount s' = liveCount s + n ∧
        (Inv w h s' ∨ (n = 0 ∧ s' = s)) := by
  intro n
  induction n with
  | zero => exact fun s hs => ⟨s, rfl, by omega, Or.inr ⟨rfl, rfl⟩⟩
  | succ n ih =>
    intro s hs
    obtain ⟨s1, he1, hinv1, _, hlive1, _⟩ := placeUnit_ok hw hh c s hs
    obtain ⟨s2, he2, hlive2, hdisj⟩ := ih s1 (Inv_PreInv hinv1)
    refine ⟨s2, ?_, by omega, Or.inl ?_⟩
    · rw [placeUnits, he1]
      exact he2
    · rcases hdisj with h2 | ⟨_, rfl⟩
      · exact h2
      · exact hinv1

theorem placeCode_ok {w h : ℤ} (hw : 1 ≤ w) (hh : 1 ≤ h) (group : Bool) {reps : ℕ}
    (hreps : 1 ≤ reps) (c : Code) (s : PackState) (hs : Inv w h s) :
    ∃ s', placeCode w h group reps c s = some s' ∧ Inv w h s' ∧
      liveCount s' = liveCount s + reps := by
  obtain ⟨hpages, hseal, hstate⟩ := hs
  by_cases hb : (group && !s.pageCodes.isEmpty) = true
  · -- grouping branch fires: the page is nonempty, so the state is `B`
    rcases hstate with ⟨hpc, _, _⟩ | ⟨pc, r, hpc, hrow, hcol, hlen, hrows⟩
    · rw [hpc] at hb
      simp at hb
    · have hpre : PreInv w h { s with row := s.row + 1, col := 0 } := by
        refine ⟨hpages, hseal, Or.inr (Or.inr ⟨by simp [hpc], ?_, rfl, by simpa using hlen,
          by simpa using hrows⟩)⟩
        simp [hrow, hpc]
      obtain ⟨s', he, hlive, hdisj⟩ := placeUnits_ok hw hh c reps _ hpre
      refine ⟨s', ?_, ?_, ?_⟩
      · rw [placeCode, if_pos hb]
        exact he
      · rcases hdisj with h2 | ⟨hz, _⟩
        · exact h2
        · omega
      · simpa [liveCount] using hlive
  · have hpre : PreInv w h s :=
      ⟨hpages, hseal, Or.elim hstate Or.inl (fun hB => Or.inr (Or.inl hB))⟩
    obtain ⟨s', he, hlive, hdisj⟩ := placeUnits_ok hw hh c reps s hpre
    refine ⟨s', ?_, ?_, hlive⟩
    · rw [placeCode, if_neg hb]
      exact he
    · rcases hdisj with h2 | ⟨hz, rfl⟩
      · exact h2
      · omega

theorem packCodes_ok {w h : ℤ} (hw : 1 ≤ w) (hh : 1 ≤ h) (group : Bool) {reps : ℕ}
    (hreps : 1 ≤ reps) :
    ∀ (codes : List Code) (s : PackState), Inv w h s →
      ∃ s', packCodes w h group reps codes s = some s' ∧ Inv w h s' ∧
        liveCount s' = liveCount s + codes.length * reps := by
  intro codes
  induction codes with
  | nil => exact fun s hs => ⟨s, rfl, hs, by simp⟩
  | cons c cs ih =>
    intro s hs
    obtain ⟨s1, he1, hinv1, hlive1⟩ := placeCode_ok hw hh group hreps c s hs
    obtain ⟨s2, he2, hinv2, hlive2⟩ := ih s1 hinv1
    refine ⟨s2, ?_, hinv2, ?_⟩
    · rw [packCodes, he1]
      exact he2
    · simp only [List.length_cons]
      have hmul : (cs.length + 1) * reps = cs.length * reps + reps := by ring
      omega

theorem initState_Inv {w h : ℤ} : Inv w h initState := by
  refine ⟨?_, ?_, Or.inl ⟨rfl, rfl, rfl⟩⟩
  · intro p hp
    simp [initState] at hp
  · intro x hx
    simp [initState] at hx

theorem effRepeat_pos {group fill : Bool} {rep w : ℤ} (hrep : 1 ≤ rep) (hw : 1 ≤ w) :
    1 ≤ effRepeat group fill rep w := by
  rw [effRepeat]
  split
  · have h0 : 0 ≤ (rep - 1).fdiv w := Int.fdiv_nonneg (by omega) (by omega)
    nlinarith
  · exact hrep

theorem pagesWF_save_page {w h : ℤ} {ps : List Page} {s : PackState}
    (hps : pagesWF w h ps) (hinv : Inv w h s) (hp : ps = s.pages) :
    pagesWF w h (save_page s.pages s.pageCodes) := by
  obtain ⟨hpages, _, hstate⟩ := hinv
  rcases hstate with ⟨hpc, _, _⟩ | ⟨pc, r, hpc, _, _, hlen, hrows⟩
  · rw [hpc, save_page_nil]
    exact hpages
  · rw [save_page_concat _ _ (by rw [hpc]; simp)]
    intro p hpmem
    rcases List.mem_append.mp hpmem with hl | hr
    · exact hpages p hl
    · simp at hr
      subst hr
      refine ⟨by rw [hpc]; simp, hlen, ?_⟩
      intro r' hr'
      exact hrows r' hr'

theorem create_labels_pack_ok {w h : ℤ} (hw : 1 ≤ w) (hh : 1 ≤ h) (group fill : Bool)
    {rep : ℤ} (hrep : 1 ≤ rep) (codes : List Code) :
    ∃ out, create_labels_pack w h group fill rep codes = some out ∧
      pagesWF w h out.pages ∧ (∀ x ∈ out.sealCols, x = 0) ∧
      totalLabels out.pages = codes.length * (effRepeat group fill rep w).toNat := by
  have hreps : 1 ≤ (effRepeat group fill rep w).toNat := by
    have := @effRepeat_pos group fill rep w hrep hw
    omega
  obtain ⟨s', he, hinv, hlive⟩ :=
    packCodes_ok hw hh group hreps codes initState initState_Inv
  refine ⟨{ s' with pages := save_page s'.pages s'.pageCodes }, ?_, ?_, ?_, ?_⟩
  · rw [create_labels_pack, he]
    rfl
  · exact pagesWF_save_page hinv.1 hinv rfl
  · exact hinv.2.1
  · have : totalLabels (save_page s'.pages s'.pageCodes) = liveCount s' :=
      totalLabels_save_page _ _
    simp only at this ⊢
    rw [this, hlive]
    simp [liveCount, initState, totalLabels, pageLabels]

theorem append_singleton_inj {α : Type} {l1 l2 : List α} {a b : α}
    (hyp : l1 ++ [a] = l2 ++ [b]) : l1 = l2 ∧ a = b := by
  have hlen : l1.length = l2.length := by
    have := congrArg List.length hyp
    simpa using this
  obtain ⟨h1, h2⟩ := List.append_inj hyp hlen
  exact ⟨h1, by simpa using h2⟩

theorem homogRow_of_const {c : Code} {r : PageRow} (hall : ∀ a ∈ r, a = c) : homogRow r := by
  intro a ha b hb
  rw [hall a ha, hall b hb]

theorem UnitDelta_homog {c : Code} {s s' : PackState} (hd : UnitDelta c s s')
    (hhom : HomogC c s) : HomogC c s' := by
  obtain ⟨hpg, hrows, hlast⟩ := hhom
  rcases hd with ⟨pc, r, hpc, hpc', hrow, hpages⟩ | ⟨hpc', hpages⟩ | ⟨hpc', hpages⟩
  · -- append to the existing last row
    have hall : ∀ a ∈ r, a = c := by
      rcases hlast with hrow' | hlast
      · exfalso
        rw [hrow'] at hrow
        omega
      · exact hlast pc r hpc
    have hallc : ∀ a ∈ r ++ [c], a = c := by
      intro a ha
      rcases List.mem_append.mp ha with hl | hr
      · exact hall a hl
      · simpa using hr
    refine ⟨by rw [hpages]; exact hpg, ?_, Or.inr ?_⟩
    · intro r' hr'
      rw [hpc'] at hr'
      rcases List.mem_append.mp hr' with hl | hr
      · exact hrows r' (by rw [hpc]; exact List.mem_append_left _ hl)
      · simp at hr
        subst hr
        exact homogRow_of_const hallc
    · intro pc2 r2 heq2
      rw [hpc'] at heq2
      obtain ⟨-, hr2⟩ := append_singleton_inj heq2
      rw [← hr2]
      exact hallc
  · -- fresh row on the same page
    refine ⟨by rw [hpages]; exact hpg, ?_, Or.inr ?_⟩
    · intro r' hr'
      rw [hpc'] at hr'
      rcases List.mem_append.mp hr' with hl | hr
      · exact hrows r' hl
      · simp at hr
        subst hr
        exact @homogRow_of_const c [c] (by simp)
    · intro pc2 r2 heq2
      rw [hpc'] at heq2
      obtain ⟨-, hr2⟩ := append_singleton_inj heq2
      rw [← hr2]
      simp
  · -- page sealed, fresh page started
    refine ⟨?_, ?_, Or.inr ?_⟩
    · rw [hpages]
      intro p hp
      rcases List.mem_append.mp hp with hl | hr
      · exact hpg p hl
      · simp at hr
        subst hr
        intro r' hr'
        exact hrows r' hr'
    · intro r' hr'
      rw [hpc'] at hr'
      simp at hr'
      subst hr'
      exact @homogRow_of_const c [c] (by simp)
    · intro pc2 r2 heq2
      rw [hpc'] at heq2
      have heq3 : ([] : Page) ++ [[c]] = pc2 ++ [r2] := by simpa using heq2
      obtain ⟨-, hr2⟩ := append_singleton_inj heq3
      rw [← hr2]
      simp

theorem placeUnits_homog {w h : ℤ} (hw : 1 ≤ w) (hh : 1 ≤ h) (c : Code) :
    ∀ n s, PreInv w h s → HomogC c s →
      ∃ s', placeUnits w h c n s = some s' ∧ HomogC c s' ∧
        (Inv w h s' ∨ (n = 0 ∧ s' = s)) := by
  intro n
  induction n with
  | zero => exact fun s _ hhom => ⟨s, rfl, hhom, Or.inr ⟨rfl, rfl⟩⟩
  | succ n ih =>
    intro s hs hhom
    obtain ⟨s1, he1, hinv1, _, _, hdelta⟩ := placeUnit_ok hw hh c s hs
    obtain ⟨s2, he2, hhom2, hdisj⟩ := ih s1 (Inv_PreInv hinv1) (UnitDelta_homog hdelta hhom)
    refine ⟨s2, ?_, hhom2, Or.inl ?_⟩
    · rw [placeUnits, he1]
      exact he2
    · rcases hdisj with h2 | ⟨_, rfl⟩
      · exact h2
      · exact hinv1

theorem Homog_HomogC {c : Code} {s : PackState} (hhom : Homog s)
    (hrow : s.row = s.pageCodes.length) : HomogC c s :=
  ⟨hhom.1, hhom.2, Or.inl hrow⟩

theorem HomogC_Homog {c : Code} {s : PackState} (hhom : HomogC c s) : Homog s :=
  ⟨hhom.1, hhom.2.1⟩

theorem placeCode_homog {w h : ℤ} (hw : 1 ≤ w) (hh : 1 ≤ h) {reps : ℕ}
    (hreps : 1 ≤ reps) (c : Code) (s : PackState) (hs : Inv w h s) (hhom : Homog s) :
    ∃ s', placeCode w h true reps c s = some s' ∧ Inv w h s' ∧ Homog s' := by
  obtain ⟨hpages, hseal, hstate⟩ := hs
  by_cases hb : (true && !s.pageCodes.isEmpty) = true
  · rcases hstate with ⟨hpc, _, _⟩ | ⟨pc, r, hpc, hrow, hcol, hlen, hrows⟩
    · rw [hpc] at hb
      simp at hb
    · have hpre : PreInv w h { s with row := s.row + 1, col := 0 } := by
        refine ⟨hpages, hseal, Or.inr (Or.inr ⟨by simp [hpc], ?_, rfl, by simpa using hlen,
          by simpa using hrows⟩)⟩
        simp [hrow, hpc]
      have hhomC : HomogC c { s with row := s.row + 1, col := 0 } := by
        refine Homog_HomogC ⟨hhom.1, hhom.2⟩ ?_
        simp [hrow, hpc]
      obtain ⟨s', he, hhom', hdisj⟩ := placeUnits_homog hw hh c reps _ hpre hhomC
      refine ⟨s', ?_, ?_, HomogC_Homog hhom'⟩
      · rw [placeCode, if_pos hb]
        exact he
      · rcases hdisj with h2 | ⟨hz, _⟩
        · exact h2
        · omega
  · have hpc : s.pageCodes = [] := by
      simp at hb
      exact hb
    rcases hstate with ⟨_, hrow, hcol⟩ | ⟨pc, r, hpc2, _, _, _, _⟩
    · have hpre : PreInv w h s := ⟨hpages, hseal, Or.inl ⟨hpc, hrow, hcol⟩⟩
      have hhomC : HomogC c s := Homog_HomogC hhom (by rw [hpc, hrow]; rfl)
      obtain ⟨s', he, hhom', hdisj⟩ := placeUnits_homog hw hh c reps s hpre hhomC
      refine ⟨s', ?_, ?_, HomogC_Homog hhom'⟩
      · rw [placeCode, if_neg hb]
        exact he
      · rcases hdisj with h2 | ⟨hz, rfl⟩
        · exact h2
        · omega
    · exfalso
      rw [hpc] at hpc2
      exact absurd hpc2.symm (by simp)

theorem packCodes_homog {w h : ℤ} (hw : 1 ≤ w) (hh : 1 ≤ h) {reps : ℕ} (hreps : 1 ≤ reps) :
    ∀ (codes : List Code) (s : PackState), Inv w h s → Homog s →
      ∃ s', packCodes w h true reps codes s = some s' ∧ Inv w h s' ∧ Homog s' := by
  intro codes
  induction codes with
  | nil => exact fun s hs hhom => ⟨s, rfl, hs, hhom⟩
  | cons c cs ih =>
    intro s hs hhom
    obtain ⟨s1, he1, hinv1, hhom1⟩ := placeCode_homog hw hh hreps c s hs hhom
    obtain ⟨s2, he2, hinv2, hhom2⟩ := ih s1 hinv1 hhom1
    refine ⟨s2, ?_, hinv2, hhom2⟩
    rw [packCodes, he1]
    exact he2

theorem homogPages_save_page {s : PackState} (hhom : Homog s) :
    homogPages (save_page s.pages s.pageCodes) := by
  rcases hpc : s.pageCodes with _ | ⟨r, rs⟩
  · rw [save_page_nil]
    exact hhom.1
  · rw [save_page_concat _ _ (by simp)]
    intro p hp
    rcases List.mem_append.mp hp with hl | hr
    · exact hhom.1 p hl
    · simp at hr
      subst hr
      intro r' hr'
      exact hhom.2 r' (by rw [hpc]; exact hr')

theorem pageLabels_le {w h : ℤ} {p : Page} (hlen : (p.length : ℤ) ≤ h)
    (hrows : ∀ r ∈ p, (r.length : ℤ) ≤ w) (hw : 0 ≤ w) :
    (pageLabels p : ℤ) ≤ w * h := by
  induction p generalizing h with
  | nil =>
    have h0 : (0 : ℤ) ≤ h := by simpa using hlen
    simpa [pageLabels] using mul_nonneg hw h0
  | cons r t ih =>
    have h1 : (t.length : ℤ) ≤ h - 1 := by
      simp only [List.length_cons] at hlen
      push_cast at hlen
      omega
    have h2 : (pageLabels t : ℤ) ≤ w * (h - 1) :=
      ih h1 (fun r' hr' => hrows r' (List.mem_cons_of_mem _ hr'))
    have h3 : (r.length : ℤ) ≤ w := hrows r (List.mem_cons_self _ _)
    have h4 : pageLabels (r :: t) = r.length + pageLabels t := by
      simp [pageLabels]
    calc ((pageLabels (r :: t) : ℕ) : ℤ) = (r.length : ℤ) + (pageLabels t : ℤ) := by
          rw [h4]; push_cast; ring
      _ ≤ w + w * (h - 1) := add_le_add h3 h2
      _ = w * h := by ring

/-- C1: for every run with positive grid capacity the total number of placed
labels over all sealed pages (including the final partial page) equals the
number of codes times the effective repeat count; no sealed page holds more
than `columns × rows` labels (each page has at most `rows` rows, each row at
most `columns` labels, and in this list-of-rows representation each
(page, row, column) cell holds at most one label by construction); and with
grid capacity 2×2, one code and repeat 5, exactly two pages are sealed, the
first with 4 placements, the second with 1. -/
theorem C1_packing_conservation :
    (∀ (w h rep : ℤ) (group fill : Bool) (codes : List Code), 1 ≤ w → 1 ≤ h → 1 ≤ rep →
      ∃ out, create_labels_pack w h group fill rep codes = some out ∧
        totalLabels out.pages = codes.length * (effRepeat group fill rep w).toNat ∧
        ∀ p ∈ out.pages, (pageLabels p : ℤ) ≤ w * h ∧ (p.length : ℤ) ≤ h ∧
          ∀ r ∈ p, (r.length : ℤ) ≤ w) ∧
    create_labels_pack 2 2 false false 5 [['A', 'A', 'A', 'A', 'A']] =
      some ⟨0, 1, [[['A', 'A', 'A', 'A', 'A']]],
        [[[['A', 'A', 'A', 'A', 'A'], ['A', 'A', 'A', 'A', 'A']],
          [['A', 'A', 'A', 'A', 'A'], ['A', 'A', 'A', 'A', 'A']]],
         [[['A', 'A', 'A', 'A', 'A']]]], [0]⟩ := by
  constructor
  · intro w h rep group fill codes hw hh hrep
    obtain ⟨out, he, hwf, hseal, htot⟩ := create_labels_pack_ok hw hh group fill hrep codes
    refine ⟨out, he, htot, ?_⟩
    intro p hp
    obtain ⟨hne, hlen, hrows⟩ := hwf p hp
    exact ⟨pageLabels_le hlen (fun r hr => (hrows r hr).2) (by omega), hlen,
      fun r hr => (hrows r hr).2⟩
  · decide

/-- Witness for C1: the universal part applied to grid 3×4, grouping and fill
on, repeat 2, two codes. -/
theorem C1_packing_conservation_witness :
    ∃ out, create_labels_pack 3 4 true true 2 [['A'], ['B']] = some out ∧
      totalLabels out.pages =
        ([['A'], ['B']] : List Code).length * (effRepeat true true 2 3).toNat ∧
      ∀ p ∈ out.pages, (pageLabels p : ℤ) ≤ 3 * 4 ∧ (p.length : ℤ) ≤ 4 ∧
        ∀ r ∈ p, (r.length : ℤ) ≤ 3 :=
  C1_packing_conservation.1 3 4 2 true true [['A'], ['B']] (by norm_num) (by norm_num)
    (by norm_num)

/-- C5: when grouping is enabled (any fill setting), every row of every sealed
page, and of the final partial page, contains copies of a single code only. -/
theorem C5_grouping_single_code_rows :
    ∀ (w h rep : ℤ) (fill : Bool) (codes : List Code), 1 ≤ w → 1 ≤ h → 1 ≤ rep →
      ∃ out, create_labels_pack w h true fill rep codes = some out ∧
        ∀ p ∈ out.pages, ∀ r ∈ p, ∀ a ∈ r, ∀ b ∈ r, a = b := by
  intro w h rep fill codes hw hh hrep
  have hreps : 1 ≤ (effRepeat true fill rep w).toNat := by
    have := @effRepeat_pos true fill rep w hrep hw
    omega
  have hhom0 : Homog initState := by
    constructor
    · intro p hp
      simp [initState] at hp
    · intro r hr
      simp [initState] at hr
  obtain ⟨s', he, hinv, hhom⟩ :=
    packCodes_homog hw hh hreps codes initState initState_Inv hhom0
  refine ⟨{ s' with pages := save_page s'.pages s'.pageCodes }, ?_, ?_⟩
  · rw [create_labels_pack, he]
    rfl
  · intro p hp r hr a ha b hb
    exact homogPages_save_page hhom p hp r hr a ha b hb

/-- Witness for C5: grid 2×2, fill off, repeat 3, two codes. -/
theorem C5_grouping_single_code_rows_witness :
    ∃ out, create_labels_pack 2 2 true false 3 [['A'], ['B']] = some out ∧
      ∀ p ∈ out.pages, ∀ r ∈ p, ∀ a ∈ r, ∀ b ∈ r, a = b :=
  C5_grouping_single_code_rows 2 2 3 false [['A'], ['B']] (by norm_num) (by norm_num)
    (by norm_num)

/-- C10: in every run with positive grid capacity, the column cursor is 0 at
every in-loop page seal (the seal branch records `col` unchanged), and every
sealed page after the first begins with a nonempty row 0, i.e. its first
label sits at row 0, column 0. -/
theorem C10_page_seal_column_zero :
    ∀ (w h rep : ℤ) (group fill : Bool) (codes : List Code), 1 ≤ w → 1 ≤ h → 1 ≤ rep →
      ∃ out, create_labels_pack w h group fill rep codes = some out ∧
        (∀ x ∈ out.sealCols, x = 0) ∧
        ∀ p ∈ out.pages.drop 1, ∃ r rest, p = r :: rest ∧ r ≠ [] := by
  intro w h rep group fill codes hw hh hrep
  obtain ⟨out, he, hwf, hseal, _⟩ := create_labels_pack_ok hw hh group fill hrep codes
  refine ⟨out, he, hseal, ?_⟩
  intro p hp
  have hpmem : p ∈ out.pages := List.mem_of_mem_drop hp
  obtain ⟨hne, _, hrows⟩ := hwf p hpmem
  obtain ⟨r, rest, hcons⟩ := List.exists_cons_of_ne_nil hne
  refine ⟨r, rest, hcons, ?_⟩
  have hrmem : r ∈ p := by rw [hcons]; exact List.mem_cons_self _ _
  have := (hrows r hrmem).1
  intro hcontra
  rw [hcontra] at this
  simp at this

/-- Witness for C10: grid 2×2, one code repeated 5 times (two sealed pages). -/
theorem C10_page_seal_column_zero_witness :
    ∃ out, create_labels_pack 2 2 false false 5 [['A', 'A', 'A', 'A', 'A']] = some out ∧
      (∀ x ∈ out.sealCols, x = 0) ∧
      ∀ p ∈ out.pages.drop 1, ∃ r rest, p = r :: rest ∧ r ≠ [] :=
  C10_page_seal_column_zero 2 2 5 false false [['A', 'A', 'A', 'A', 'A']] (by norm_num)
    (by norm_num) (by norm_num)

/-! ### Arithmetic for the grid and fill formulas -/

theorem pyInt_of_nonneg {q : ℚ} (hq : 0 ≤ q) : pyInt q = ⌊q⌋ := if_pos hq

theorem pyInt_intCast (z : ℤ) : pyInt ((z : ℚ)) = z := by
  rw [pyInt]
  split
  · exact Int.floor_intCast z
  · exact Int.ceil_intCast z

theorem qr_size_px_eq {s : ℚ} (hs : 0 ≤ s) : qr_size_px s = ⌊s * DPI⌋ :=
  pyInt_of_nonneg (mul_nonneg hs (by rw [DPI]; norm_num))

theorem qr_size_px_ge {s : ℚ} (hs : 1 ≤ s) : 300 ≤ qr_size_px s := by
  rw [qr_size_px_eq (by linarith)]
  apply Int.le_floor.mpr
  push_cast
  rw [DPI]
  nlinarith

theorem qr_size_px_mono {s1 s2 : ℚ} (h1 : 0 ≤ s1) (h12 : s1 ≤ s2) :
    qr_size_px s1 ≤ qr_size_px s2 := by
  rw [qr_size_px_eq h1, qr_size_px_eq (by linarith)]
  apply Int.floor_mono
  have : (0 : ℚ) ≤ DPI := by rw [DPI]; norm_num
  nlinarith

theorem axis_props {a : ℚ} {b : ℤ} (ha : 0 ≤ a) (hab : a ≤ (b : ℚ)) {q1 q2 : ℤ}
    (h1 : 0 < q1) (h12 : q1 ≤ q2) :
    ⌊a / ((q2 : ℤ) : ℚ)⌋ ≤ ⌊a / ((q1 : ℤ) : ℚ)⌋ ∧ 0 ≤ ⌊a / ((q1 : ℤ) : ℚ)⌋ ∧
      q1 * ⌊a / ((q1 : ℤ) : ℚ)⌋ ≤ b := by
  have hq1 : (0 : ℚ) < (q1 : ℚ) := by exact_mod_cast h1
  have hq2 : (0 : ℚ) < (q2 : ℚ) := by
    have : q1 ≤ q2 := h12
    exact_mod_cast lt_of_lt_of_le h1 this
  refine ⟨?_, ?_, ?_⟩
  · apply Int.floor_mono
    apply div_le_div_of_nonneg_left ha hq1
    exact_mod_cast h12
  · exact Int.floor_nonneg.mpr (div_nonneg ha (le_of_lt hq1))
  · have hle : (⌊a / ((q1 : ℤ) : ℚ)⌋ : ℚ) ≤ a / (q1 : ℚ) := Int.floor_le _
    have h2 : ((q1 : ℤ) : ℚ) * (⌊a / ((q1 : ℤ) : ℚ)⌋ : ℚ) ≤ a := by
      rw [mul_comm]
      calc (⌊a / ((q1 : ℤ) : ℚ)⌋ : ℚ) * (q1 : ℚ) ≤ (a / (q1 : ℚ)) * (q1 : ℚ) :=
            mul_le_mul_of_nonneg_right hle (le_of_lt hq1)
        _ = a := div_mul_cancel₀ _ (ne_of_gt hq1)
    exact_mod_cast le_trans h2 hab

theorem calculate_grid_dim_cut (pg : Dimensions2D) (qr : ℤ) :
    calculate_grid_dim pg qr true =
      (⌊(pg.width + -1) / ((qr + 1 : ℤ) : ℚ)⌋, ⌊(pg.height + -1) / ((qr + 1 : ℤ) : ℚ)⌋) := by
  simp [calculate_grid_dim, Dimensions2D.resize]

theorem calculate_grid_dim_nocut (pg : Dimensions2D) (qr : ℤ) :
    calculate_grid_dim pg qr false = (⌊pg.width / ((qr : ℤ) : ℚ)⌋, ⌊pg.height / ((qr : ℤ) : ℚ)⌋) :=
  rfl

theorem PWM_width : PAGE_WITHOUT_MARGINS_PX.width = 2250 := by
  norm_num [PAGE_WITHOUT_MARGINS_PX, PAGE_DIM, LETTER_DIM_IN, PAGE_MARGIN_PX, PAGE_MARGIN_IN,
    DPI, Dimensions2D.scale, Dimensions2D.resize]

theorem PWM_height : PAGE_WITHOUT_MARGINS_PX.height = 3000 := by
  norm_num [PAGE_WITHOUT_MARGINS_PX, PAGE_DIM, LETTER_DIM_IN, PAGE_MARGIN_PX, PAGE_MARGIN_IN,
    DPI, Dimensions2D.scale, Dimensions2D.resize]

/-- C8: for the fixed page and margin of the source, grid capacity is
componentwise non-increasing as the scale factor grows, always a pair of
non-negative integers, and footprint × capacity never exceeds the printable
area (2250 × 3000 pixels) on either axis. -/
theorem C8_grid_capacity_monotone :
    ∀ (s1 s2 : ℚ) (cut : Bool), 1 ≤ s1 → s1 ≤ s2 →
      ((calculate_grid_dim PAGE_WITHOUT_MARGINS_PX (qr_size_px s2) cut).1 ≤
         (calculate_grid_dim PAGE_WITHOUT_MARGINS_PX (qr_size_px s1) cut).1 ∧
       (calculate_grid_dim PAGE_WITHOUT_MARGINS_PX (qr_size_px s2) cut).2 ≤
         (calculate_grid_dim PAGE_WITHOUT_MARGINS_PX (qr_size_px s1) cut).2) ∧
      (0 ≤ (calculate_grid_dim PAGE_WITHOUT_MARGINS_PX (qr_size_px s1) cut).1 ∧
       0 ≤ (calculate_grid_dim PAGE_WITHOUT_MARGINS_PX (qr_size_px s1) cut).2) ∧
      ((qr_size_px s1 + (if cut then 1 else 0)) *
          (calculate_grid_dim PAGE_WITHOUT_MARGINS_PX (qr_size_px s1) cut).1 ≤ 2250 ∧
       (qr_size_px s1 + (if cut then 1 else 0)) *
          (calculate_grid_dim PAGE_WITHOUT_MARGINS_PX (qr_size_px s1) cut).2 ≤ 3000) := by
  intro s1 s2 cut hs1 hs12
  have hq1 : 300 ≤ qr_size_px s1 := qr_size_px_ge hs1
  have hq12 : qr_size_px s1 ≤ qr_size_px s2 := qr_size_px_mono (by linarith) hs12
  cases cut
  · rw [calculate_grid_dim_nocut, calculate_grid_dim_nocut, PWM_width, PWM_height]
    obtain ⟨hw1, hw2, hw3⟩ := @axis_props 2250 2250 (by norm_num) (by norm_num)
      (qr_size_px s1) (qr_size_px s2) (lt_of_lt_of_le (by norm_num) hq1) hq12
    obtain ⟨hh1, hh2, hh3⟩ := @axis_props 3000 3000 (by norm_num) (by norm_num)
      (qr_size_px s1) (qr_size_px s2) (lt_of_lt_of_le (by norm_num) hq1) hq12
    simpa using ⟨⟨hw1, hh1⟩, ⟨hw2, hh2⟩, hw3, hh3⟩
  · rw [calculate_grid_dim_cut, calculate_grid_dim_cut, PWM_width, PWM_height]
    obtain ⟨hw1, hw2, hw3⟩ := @axis_props (2250 + -1) 2250 (by norm_num)
      (by norm_num) (qr_size_px s1 + 1) (qr_size_px s2 + 1) (by omega) (by omega)
    obtain ⟨hh1, hh2, hh3⟩ := @axis_props (3000 + -1) 3000 (by norm_num)
      (by norm_num) (qr_size_px s1 + 1) (qr_size_px s2 + 1) (by omega) (by omega)
    refine ⟨⟨?_, ?_⟩, ⟨?_, ?_⟩, ?_, ?_⟩
    · simpa using hw1
    · simpa using hh1
    · simpa using hw2
    · simpa using hh2
    · simpa using hw3
    · simpa using hh3

/-- Witness for C8: scales 1 and 2 with cut lines on. -/
theorem C8_grid_capacity_monotone_witness :
    ((calculate_grid_dim PAGE_WITHOUT_MARGINS_PX (qr_size_px 2) true).1 ≤
       (calculate_grid_dim PAGE_WITHOUT_MARGINS_PX (qr_size_px 1) true).1 ∧
     (calculate_grid_dim PAGE_WITHOUT_MARGINS_PX (qr_size_px 2) true).2 ≤
       (calculate_grid_dim PAGE_WITHOUT_MARGINS_PX (qr_size_px 1) true).2) ∧
    (0 ≤ (calculate_grid_dim PAGE_WITHOUT_MARGINS_PX (qr_size_px 1) true).1 ∧
     0 ≤ (calculate_grid_dim PAGE_WITHOUT_MARGINS_PX (qr_size_px 1) true).2) ∧
    ((qr_size_px 1 + (if true then 1 else 0)) *
        (calculate_grid_dim PAGE_WITHOUT_MARGINS_PX (qr_size_px 1) true).1 ≤ 2250 ∧
     (qr_size_px 1 + (if true then 1 else 0)) *
        (calculate_grid_dim PAGE_WITHOUT_MARGINS_PX (qr_size_px 1) true).2 ≤ 3000) :=
  C8_grid_capacity_monotone 1 2 true (by norm_num) (by norm_num)

/-- C4: with grouping and fill both enabled, the effective repeat equals
`⌈repeat / columns⌉ * columns`; with 5 columns, repeat 7 becomes 10 and
repeat 5 stays 5. -/
theorem C4_fill_group_rounding :
    (∀ rep w : ℤ, 1 ≤ rep → 1 ≤ w →
      effRepeat true true rep w = ⌈(rep : ℚ) / ((w : ℤ) : ℚ)⌉ * w) ∧
    effRepeat true true 7 5 = 10 ∧ effRepeat true true 5 5 = 5 := by
  refine ⟨?_, by decide, by decide⟩
  intro rep w hrep hw
  have hw0 : (0 : ℤ) < w := by omega
  have hw0Q : (0 : ℚ) < ((w : ℤ) : ℚ) := by exact_mod_cast hw0
  have hfd : (rep - 1).fdiv w = (rep - 1) / w := Int.fdiv_eq_ediv _ (by omega)
  have hq : ⌈(rep : ℚ) / ((w : ℤ) : ℚ)⌉ = (rep - 1) / w + 1 := by
    have hmod1 : 0 ≤ (rep - 1) % w := Int.emod_nonneg _ (by omega)
    have hmod2 : (rep - 1) % w < w := Int.emod_lt_of_pos _ hw0
    have hdiv : w * ((rep - 1) / w) + (rep - 1) % w = rep - 1 := Int.ediv_add_emod _ _
    have hzlt : ((rep - 1) / w) * w < rep := by nlinarith
    have hzle : rep ≤ ((rep - 1) / w + 1) * w := by nlinarith
    rw [Int.ceil_eq_iff]
    constructor
    · rw [lt_div_iff₀ hw0Q]
      push_cast
      calc ((((rep - 1) / w : ℤ) : ℚ) + 1 - 1) * ((w : ℤ) : ℚ) =
            (((rep - 1) / w : ℤ) : ℚ) * ((w : ℤ) : ℚ) := by ring
        _ < rep := by exact_mod_cast hzlt
    · rw [div_le_iff₀ hw0Q]
      push_cast
      exact_mod_cast hzle
  rw [effRepeat, hq]
  simp [hfd]

/-- Witness for C4: the universal part applied at repeat 7, columns 5. -/
theorem C4_fill_group_rounding_witness :
    effRepeat true true 7 5 = ⌈(7 : ℚ) / ((5 : ℤ) : ℚ)⌉ * 5 :=
  C4_fill_group_rounding.1 7 5 (by norm_num) (by norm_num)

theorem floor_div_eval {a b : ℚ} {z : ℤ} (hb : 0 < b) (h1 : (z : ℚ) * b ≤ a)
    (h2 : a < ((z : ℚ) + 1) * b) : ⌊a / b⌋ = z := by
  rw [Int.floor_eq_iff]
  constructor
  · rw [le_div_iff₀ hb]
    exact h1
  · rw [div_lt_iff₀ hb]
    push_cast
    exact h2

theorem qr_size_px_449 : qr_size_px (449 / 300) = 449 := by
  rw [qr_size_px, show (449 / 300 : ℚ) * DPI = ((449 : ℤ) : ℚ) by rw [DPI]; norm_num,
    pyInt_intCast]

theorem qr_size_px_1503 : qr_size_px (1503 / 1000) = 450 := by
  rw [qr_size_px, pyInt_of_nonneg (by rw [DPI]; norm_num)]
  rw [Int.floor_eq_iff]
  rw [DPI]
  norm_num

theorem qr_size_px_8 : qr_size_px 8 = 2400 := by
  rw [qr_size_px, show (8 : ℚ) * DPI = ((2400 : ℤ) : ℚ) by rw [DPI]; norm_num, pyInt_intCast]

/-- C2 counterexample: at scale 449/300 with cut lines, the spec's formula
(no printable-area reduction) gives 5 columns while the code gives 4; at
scale 1.503 without cut lines, the spec's formula (no `int(...)` truncation
of the footprint) gives 4 columns while the code gives 5. -/
theorem C2_grid_formula_counterexample :
    specClaimGridDim LETTER_DIM_IN PAGE_MARGIN_IN (449 / 300) true ≠
      calculate_grid_dim PAGE_WITHOUT_MARGINS_PX (qr_size_px (449 / 300)) true ∧
    specClaimGridDim LETTER_DIM_IN PAGE_MARGIN_IN (1503 / 1000) false ≠
      calculate_grid_dim PAGE_WITHOUT_MARGINS_PX (qr_size_px (1503 / 1000)) false := by
  constructor
  · intro heq
    have h1 : (specClaimGridDim LETTER_DIM_IN PAGE_MARGIN_IN (449 / 300) true).1 = 5 := by
      simp only [specClaimGridDim, if_true]
      rw [show ((LETTER_DIM_IN.width - 2 * PAGE_MARGIN_IN) * DPI /
          ((449 / 300 : ℚ) * DPI + 1)) = 2250 / 450 by
        rw [LETTER_DIM_IN, PAGE_MARGIN_IN, DPI]; norm_num]
      exact floor_div_eval (by norm_num) (by norm_num) (by norm_num)
    have h2 : (calculate_grid_dim PAGE_WITHOUT_MARGINS_PX (qr_size_px (449 / 300)) true).1 =
        4 := by
      rw [qr_size_px_449, calculate_grid_dim_cut]
      simp only
      rw [PWM_width]
      rw [show ((2250 : ℚ) + -1) / (((449 + 1 : ℤ) : ℤ) : ℚ) = 2249 / 450 by norm_num]
      exact floor_div_eval (by norm_num) (by norm_num) (by norm_num)
    have := congrArg Prod.fst heq
    rw [h1, h2] at this
    norm_num at this
  · intro heq
    have h1 : (specClaimGridDim LETTER_DIM_IN PAGE_MARGIN_IN (1503 / 1000) false).1 = 4 := by
      simp only [specClaimGridDim, Bool.false_eq_true, if_false, add_zero]
      rw [show ((LETTER_DIM_IN.width - 2 * PAGE_MARGIN_IN) * DPI /
          ((1503 / 1000 : ℚ) * DPI)) = 2250 / (4509 / 10) by
        rw [LETTER_DIM_IN, PAGE_MARGIN_IN, DPI]; norm_num]
      exact floor_div_eval (by norm_num) (by norm_num) (by norm_num)
    have h2 : (calculate_grid_dim PAGE_WITHOUT_MARGINS_PX (qr_size_px (1503 / 1000)) false).1 =
        5 := by
      rw [qr_size_px_1503, calculate_grid_dim_nocut]
      simp only
      rw [PWM_width]
      rw [show ((2250 : ℚ)) / (((450 : ℤ) : ℤ) : ℚ) = 2250 / 450 by norm_num]
      exact floor_div_eval (by norm_num) (by norm_num) (by norm_num)
    have := congrArg Prod.fst heq
    rw [h1, h2] at this
    norm_num at this

/-- C2 amended: for every page size, margin, scale and cut-line setting, grid
capacity per axis is `floor(printable / footprint)` where the footprint is
`int(scale × resolution)` plus one pixel when cut lines are requested, and
the printable area (page minus twice the margin, in pixels) is additionally
reduced by one pixel per axis when cut lines are requested. -/
theorem C2_grid_formula_amended :
    ∀ (pageIn : Dimensions2D) (marginIn scale : ℚ) (cut : Bool),
      calculate_grid_dim ((pageIn.scale DPI).resize (-2 * (marginIn * DPI)))
        (qr_size_px scale) cut = amendedGridDim pageIn marginIn scale cut := by
  intro pageIn marginIn scale cut
  cases cut
  · rw [calculate_grid_dim_nocut]
    simp only [amendedGridDim, Dimensions2D.scale, Dimensions2D.resize, qr_size_px,
      Bool.false_eq_true, if_false, add_zero, sub_zero]
    rw [Prod.mk.injEq]
    constructor
    · congr 1
      ring
    · congr 1
      ring
  · rw [calculate_grid_dim_cut]
    simp only [amendedGridDim, Dimensions2D.scale, Dimensions2D.resize, qr_size_px, if_true]
    rw [Prod.mk.injEq]
    constructor
    · congr 1
      ring
    · congr 1
      ring

/-- C3: zero grid capacity is not rejected. With scale 8 the grid is (0, 1);
the packing model still succeeds, sealing one page holding 2 labels in a
single row although the grid capacity is 0 × 1 = 0 cells, and no
configuration error is ever raised (the source checks nothing and calls
`generate_codes` before even computing the grid). -/
theorem C3_zero_grid_not_rejected :
    calculate_grid_dim PAGE_WITHOUT_MARGINS_PX (qr_size_px 8) false = (0, 1) ∧
    create_labels_run 8 false false false 2 [['A', 'A', 'A', 'A', 'A']] =
      some ⟨0, 2, [[['A', 'A', 'A', 'A', 'A'], ['A', 'A', 'A', 'A', 'A']]],
        [[[['A', 'A', 'A', 'A', 'A'], ['A', 'A', 'A', 'A', 'A']]]], [0]⟩ ∧
    totalLabels [[[['A', 'A', 'A', 'A', 'A'], ['A', 'A', 'A', 'A', 'A']]]] = 2 := by
  have hg : calculate_grid_dim PAGE_WITHOUT_MARGINS_PX (qr_size_px 8) false = (0, 1) := by
    rw [qr_size_px_8, calculate_grid_dim_nocut, PWM_width, PWM_height]
    rw [Prod.mk.injEq]
    constructor
    · exact floor_div_eval (by norm_num) (by norm_num) (by norm_num)
    · exact floor_div_eval (by norm_num) (by norm_num) (by norm_num)
  refine ⟨hg, ?_, by decide⟩
  simp only [create_labels_run, hg]
  decide

/-- C6: the compact spec parser maps `"20x4@2"` to count 20, repeat 4, scale
2.0; maps `"15"` to count 15 keeping the configured defaults for repeat and
scale; and rejects `"abc"` and `"5x"` with a validation error before any
generation work (the cli model returns an error value instead of a
configuration). -/
theorem C6_compact_spec_parsing :
    (∀ (c0 r0 : ℤ) (s0 : ℚ), cliValidate c0 r0 s0 (some "20x4@2") =
       .ok ⟨20, 4, 2⟩) ∧
    (∀ (c0 r0 : ℤ) (s0 : ℚ), 1 ≤ r0 → 1 ≤ s0 →
       cliValidate c0 r0 s0 (some "15") = .ok ⟨15, r0, s0⟩) ∧
    (∀ (c0 r0 : ℤ) (s0 : ℚ), cliValidate c0 r0 s0 (some "abc") =
       .error "SPEC is invalid") ∧
    (∀ (c0 r0 : ℤ) (s0 : ℚ), cliValidate c0 r0 s0 (some "5x") =
       .error "SPEC is invalid") := by
  refine ⟨fun c0 r0 s0 => rfl, ?_, fun c0 r0 s0 => rfl, fun c0 r0 s0 => rfl⟩
  intro c0 r0 s0 hr hs
  have hp : parseSpec "15" = some (15, none, none) := by decide
  simp only [cliValidate, hp]
  rw [if_neg (show ¬("15" = "") from by decide)]
  simp only [Nat.cast_ofNat,
    if_neg (show ¬((15 : ℤ) < 1) from by norm_num),
    if_neg (show ¬(r0 < 1) from by omega),
    if_neg (not_lt.mpr hs)]

/-- Witness for C6: the `"15"` case at the source's CLI defaults. -/
theorem C6_compact_spec_parsing_witness :
    cliValidate 1 1 (3 / 2) (some "15") = .ok ⟨15, 1, 3 / 2⟩ :=
  C6_compact_spec_parsing.2.1 1 1 (3 / 2) (by norm_num) (by norm_num)

/-! ### Code generation -/

theorem generate_code_length (pick : Pick) : (generate_code pick).length = CODE_SIZE := by
  simp [generate_code]

theorem generate_code_mem (pick : Pick) : ∀ ch ∈ generate_code pick, ch ∈ ALPHANUM_UPPER := by
  intro ch hch
  rw [generate_code] at hch
  obtain ⟨i, _, hi⟩ := List.mem_map.mp hch
  rw [← hi]
  exact List.get_mem _ _ _

theorem generate_code_get (p : Pick) (i : Fin CODE_SIZE)
    (hlt : (i : ℕ) < (generate_code p).length) :
    (generate_code p).get ⟨(i : ℕ), hlt⟩ = ALPHANUM_UPPER.get (p i) := by
  have hn : (i : ℕ) < (List.finRange CODE_SIZE).length := by simpa using i.2
  rw [show (generate_code p).get ⟨(i : ℕ), hlt⟩ =
      ((List.finRange CODE_SIZE).map (fun j => ALPHANUM_UPPER.get (p j))).get
        ⟨(i : ℕ), by simpa [generate_code] using hlt⟩ from rfl]
  rw [← @List.get_map_rev (Fin CODE_SIZE) Char (fun j => ALPHANUM_UPPER.get (p j))
    (List.finRange CODE_SIZE) ⟨(i : ℕ), hn⟩]
  rw [List.get_finRange]

theorem generate_code_injective : Function.Injective generate_code := by
  intro p1 p2 hyp
  funext i
  have hlt1 : (i : ℕ) < (generate_code p1).length := by
    rw [generate_code_length]
    exact i.2
  have h3 := List.get_of_eq hyp ⟨(i : ℕ), hlt1⟩
  rw [generate_code_get p1 i hlt1, generate_code_get p2 i _] at h3
  exact (List.Nodup.get_inj_iff (by decide)).mp h3

theorem insertKey_nodup {ks : List (List Char)} (hnd : ks.Nodup) (k : List Char) :
    (insertKey ks k).Nodup := by
  rw [insertKey]
  split
  · exact hnd
  · rename_i hnot
    rw [List.nodup_append]
    exact ⟨hnd, List.nodup_singleton k, by simpa using hnot⟩

theorem insertKey_mem {P : List Char → Prop} {ks : List (List Char)} {k : List Char}
    (hall : ∀ x ∈ ks, P x) (hk : P k) : ∀ x ∈ insertKey ks k, P x := by
  intro x hx
  rw [insertKey] at hx
  split at hx
  · exact hall x hx
  · rcases List.mem_append.mp hx with hl | hr
    · exact hall x hl
    · simp at hr
      rw [hr]
      exact hk

theorem insertKey_length_le (ks : List (List Char)) (k : List Char) :
    (insertKey ks k).length ≤ ks.length + 1 := by
  rw [insertKey]
  split
  · omega
  · simp

theorem keys_length_le {ks : List (List Char)} (hnd : ks.Nodup)
    (hmem : ∀ k ∈ ks, ∃ pick : Pick, k = generate_code pick) :
    ks.length ≤ 35 ^ 5 := by
  classical
  have h1 : ks.toFinset ⊆ Finset.image generate_code Finset.univ := by
    intro k hk
    rw [List.mem_toFinset] at hk
    obtain ⟨pick, hpick⟩ := hmem k hk
    rw [hpick]
    exact Finset.mem_image_of_mem _ (Finset.mem_univ _)
  have h2 : ks.toFinset.card = ks.length := List.toFinset_card_of_nodup hnd
  have h4 : Fintype.card Pick = 35 ^ 5 := by
    rw [Fintype.card_fun]
    rw [Fintype.card_fin, Fintype.card_fin]
    rw [show ALPHANUM_UPPER.length = 35 from by decide, show CODE_SIZE = 5 from rfl]
  calc ks.length = ks.toFinset.card := h2.symm
    _ ≤ (Finset.image generate_code Finset.univ).card := Finset.card_le_card h1
    _ ≤ Finset.univ.card := Finset.card_image_le
    _ = Fintype.card Pick := Finset.card_univ
    _ = 35 ^ 5 := h4

theorem generate_codes_loop_some (oracle : ℕ → Pick) (count : ℕ) :
    ∀ (fuel i : ℕ) (ks res : List (List Char)), ks.Nodup →
      (∀ k ∈ ks, ∃ pick : Pick, k = generate_code pick) → ks.length ≤ count →
      generate_codes_loop oracle count fuel i ks = some res →
      res.length = count ∧ res.Nodup ∧ ∀ k ∈ res, ∃ pick : Pick, k = generate_code pick := by
  intro fuel
  induction fuel with
  | zero =>
    intro i ks res hnd hmem hlen hres
    rw [generate_codes_loop] at hres
    split at hres
    · rename_i hc
      cases hres
      exact ⟨le_antisymm hlen hc, hnd, hmem⟩
    · cases hres
  | succ f ih =>
    intro i ks res hnd hmem hlen hres
    rw [generate_codes_loop] at hres
    split at hres
    · rename_i hc
      cases hres
      exact ⟨le_antisymm hlen hc, hnd, hmem⟩
    · rename_i hc
      refine ih (i + 1) _ res (insertKey_nodup hnd _)
        (insertKey_mem hmem ⟨oracle i, rfl⟩) ?_ hres
      have := insertKey_length_le ks (generate_code (oracle i))
      omega

theorem generate_codes_loop_none (oracle : ℕ → Pick) (count : ℕ) (hcount : 35 ^ 5 < count) :
    ∀ (fuel i : ℕ) (ks : List (List Char)), ks.Nodup →
      (∀ k ∈ ks, ∃ pick : Pick, k = generate_code pick) →
      generate_codes_loop oracle count fuel i ks = none := by
  intro fuel
  induction fuel with
  | zero =>
    intro i ks hnd hmem
    rw [generate_codes_loop]
    rw [if_neg]
    have := keys_length_le hnd hmem
    omega
  | succ f ih =>
    intro i ks hnd hmem
    rw [generate_codes_loop]
    rw [if_neg]
    · exact ih (i + 1) _ (insertKey_nodup hnd _) (insertKey_mem hmem ⟨oracle i, rfl⟩)
    · have := keys_length_le hnd hmem
      omega

theorem init_fold_props (oracle : ℕ → Pick) :
    ∀ (l : List ℕ) (acc : List (List Char)), acc.Nodup →
      (∀ k ∈ acc, ∃ pick : Pick, k = generate_code pick) →
      ((l.foldl (fun ks n => insertKey ks (generate_code (oracle n))) acc).Nodup ∧
       (∀ k ∈ l.foldl (fun ks n => insertKey ks (generate_code (oracle n))) acc,
          ∃ pick : Pick, k = generate_code pick) ∧
       (l.foldl (fun ks n => insertKey ks (generate_code (oracle n))) acc).length ≤
         acc.length + l.length) := by
  intro l
  induction l with
  | nil => exact fun acc hnd hmem => ⟨hnd, hmem, by simp⟩
  | cons a t ih =>
    intro acc hnd hmem
    obtain ⟨h1, h2, h3⟩ := ih (insertKey acc (generate_code (oracle a)))
      (insertKey_nodup hnd _) (insertKey_mem hmem ⟨oracle a, rfl⟩)
    refine ⟨h1, h2, ?_⟩
    simp only [List.foldl_cons] at h3 ⊢
    have := insertKey_length_le acc (generate_code (oracle a))
    simp only [List.length_cons]
    omega

theorem fold_insert_distinct (g : ℕ → List Char) :
    ∀ (l : List ℕ) (acc : List (List Char)), (l.map g).Nodup → (∀ x ∈ l, g x ∉ acc) →
      l.foldl (fun ks n => insertKey ks (g n)) acc = acc ++ l.map g := by
  intro l
  induction l with
  | nil =>
    intro acc _ _
    simp
  | cons a t ih =>
    intro acc hnd hni
    rw [List.map_cons] at hnd
    have hnd1 : g a ∉ t.map g := (List.nodup_cons.mp hnd).1
    have hnd2 : (t.map g).Nodup := (List.nodup_cons.mp hnd).2
    have hga : g a ∉ acc := hni a (List.mem_cons_self a t)
    have hni2 : ∀ x ∈ t, g x ∉ acc ++ [g a] := by
      intro x hx hmem
      rcases List.mem_append.mp hmem with hl | hr
      · exact hni x (List.mem_cons_of_mem a hx) hl
      · simp at hr
        apply hnd1
        rw [← hr]
        exact List.mem_map_of_mem g hx
    simp only [List.foldl_cons]
    rw [show insertKey acc (g a) = acc ++ [g a] by rw [insertKey, if_neg hga]]
    rw [ih (acc ++ [g a]) hnd2 hni2]
    simp

theorem generate_codes_feasible (count : ℕ) (hcount : count ≤ 35 ^ 5) :
    ∃ (oracle : ℕ → Pick) (codes : List (List Char)),
      generate_codes oracle count 0 = some codes := by
  classical
  have hcp : Fintype.card Pick = 35 ^ 5 := by
    rw [Fintype.card_fun, Fintype.card_fin, Fintype.card_fin]
    rw [show ALPHANUM_UPPER.length = 35 from by decide, show CODE_SIZE = 5 from rfl]
  have hcard : Fintype.card (Fin count) ≤ Fintype.card Pick := by
    rw [Fintype.card_fin, hcp]
    exact hcount
  obtain ⟨emb⟩ := Function.Embedding.nonempty_of_card_le hcard
  refine ⟨fun n => if hn : n < count then emb ⟨n, hn⟩ else (fun _ => ⟨0, by decide⟩),
    (List.range count).map (fun n =>
      generate_code (if hn : n < count then emb ⟨n, hn⟩ else fun _ => ⟨0, by decide⟩)), ?_⟩
  rw [generate_codes]
  have hnd : ((List.range count).map (fun n =>
      generate_code (if hn : n < count then emb ⟨n, hn⟩ else fun _ => ⟨0, by decide⟩))).Nodup := by
    apply List.Nodup.map_on ?_ (List.nodup_range count)
    intro x hx y hy hxy
    rw [List.mem_range] at hx hy
    rw [dif_pos hx, dif_pos hy] at hxy
    have h1 := generate_code_injective hxy
    have h2 := emb.injective h1
    exact congrArg Fin.val h2
  rw [fold_insert_distinct _ (List.range count) [] hnd (by intro x _ hx; simp at hx)]
  rw [generate_codes_loop]
  rw [if_pos (by simp)]
  simp

/-- C7: whenever `generate_codes` returns, it returns exactly `count` distinct
codes, each of length `CODE_SIZE = 5` with characters drawn from
`ALPHANUM_UPPER` (uppercase Latin letters and digits with `Q` removed) and
never containing `Q`; the excluded character is indeed absent from the
alphabet; and for every count within the 35^5 code space a successful run
exists. -/
theorem C7_codes_unique_wellformed :
    (∀ (oracle : ℕ → Pick) (count fuel : ℕ) (codes : List (List Char)),
      generate_codes oracle count fuel = some codes →
      codes.length = count ∧ codes.Nodup ∧
        ∀ cd ∈ codes, cd.length = CODE_SIZE ∧ ∀ ch ∈ cd, ch ∈ ALPHANUM_UPPER ∧ ch ≠ 'Q') ∧
    'Q' ∉ ALPHANUM_UPPER ∧
    (∀ count ≤ 35 ^ 5, ∃ (oracle : ℕ → Pick) (codes : List (List Char)),
      generate_codes oracle count 0 = some codes) := by
  refine ⟨?_, by decide, generate_codes_feasible⟩
  intro oracle count fuel codes hres
  rw [generate_codes] at hres
  obtain ⟨hnd0, hmem0, hlen0⟩ := init_fold_props oracle (List.range count) [] List.nodup_nil
    (by intro k hk; simp at hk)
  obtain ⟨h1, h2, h3⟩ := generate_codes_loop_some oracle count fuel count _ codes hnd0 hmem0
    (by simpa using hlen0) hres
  refine ⟨h1, h2, ?_⟩
  intro cd hcd
  obtain ⟨pick, hpick⟩ := h3 cd hcd
  subst hpick
  refine ⟨generate_code_length pick, ?_⟩
  intro ch hch
  have hmem := generate_code_mem pick ch hch
  refine ⟨hmem, ?_⟩
  intro hq
  rw [hq] at hmem
  exact absurd hmem (by decide)

/-- Witness for C7: a concrete oracle whose first two draws give the codes
`AAAAA` and `BBBBB`. -/
theorem C7_codes_unique_wellformed_witness :
    (['A', 'A', 'A', 'A', 'A'] :: ['B', 'B', 'B', 'B', 'B'] :: []).length = 2 ∧
    (['A', 'A', 'A', 'A', 'A'] :: ['B', 'B', 'B', 'B', 'B'] :: []).Nodup ∧
    (∀ cd ∈ (['A', 'A', 'A', 'A', 'A'] :: ['B', 'B', 'B', 'B', 'B'] :: []),
      cd.length = CODE_SIZE ∧ ∀ ch ∈ cd, ch ∈ ALPHANUM_UPPER ∧ ch ≠ 'Q') :=
  C7_codes_unique_wellformed.1
    (fun n _ => ⟨n % 35, by rw [show ALPHANUM_UPPER.length = 35 from by decide]; omega⟩) 2 0 _
    (by decide)

/-- C9: when the requested count exceeds the 35^5 code space, the retry loop
of `generate_codes` can never terminate — for every oracle and every fuel
bound the loop is still running — and the source contains no fail-fast
check, contrary to the claim. -/
theorem C9_exhaustion_no_failfast :
    ∀ (oracle : ℕ → Pick) (fuel : ℕ), generate_codes oracle (35 ^ 5 + 1) fuel = none := by
  intro oracle fuel
  rw [generate_codes]
  obtain ⟨hnd0, hmem0, _⟩ := init_fold_props oracle (List.range (35 ^ 5 + 1)) []
    List.nodup_nil (by intro k hk; simp at hk)
  exact generate_codes_loop_none oracle (35 ^ 5 + 1) (by omega) fuel _ _ hnd0 hmem0

end QRLabels
